import Mathlib

/-!
# Spendsense duplicate-intent detector: a shallow embedding

This file embeds `check_purchase_history` (src/app.py), the two-stage
string-similarity matcher, and settles the specification claims about it.

The source function reads the user's past `item_name` values from the
database and then runs a pure two-stage match.  We model the fetched
column values as an explicit `rows` parameter (the DB query and its
`except` fallback are the caller's concern; the matcher's behaviour is a
pure function of the fetched values, the candidate name and the threshold).

Machine reals: the source compares `difflib` ratios (floats) against the
threshold.  All ratio values are exact dyadic-free rationals
`2*M/(len a + len b)`; we model them and the threshold in `ℚ`.

`difflib` semantics embedded here (the source delegates to the Python
standard library, whose behaviour is fixed):
* `SequenceMatcher.ratio() = 2*M/(len a + len b)` where `M` is the total
  size of the matching blocks: repeatedly take the longest contiguous
  common block (ties: least start in `a`, then least start in `b`) and
  recurse on the pieces to its left and to its right; two empty strings
  have ratio 1.  (The `autojunk` heuristic only alters this for strings
  of length ≥ 200 and is not modelled.)
* `get_close_matches(word, names, n=1, cutoff)` raises `ValueError`
  unless `0 ≤ cutoff ≤ 1`; otherwise it keeps the names whose ratio
  against `word` is ≥ cutoff (its `real_quick_ratio`/`quick_ratio`
  prefilters are upper bounds of `ratio`, so the kept set is exactly
  this) and returns the maximum of the `(ratio, name)` pairs in
  lexicographic tuple order, the first such pair winning exact ties
  (`heapq.nlargest(1, ...)` is `max`, which replaces the current best
  only on a strictly greater element).
-/

set_option maxRecDepth 100000

namespace Spendsense

/-- A value fetched from the `item_name` column: either a Python string
(char list) or a non-string value, carrying its truthiness.  `None`,
which the source normalises away with `r[0] or ""`, is `nonstr false`. -/
inductive DbVal
  | str : List Char → DbVal
  | nonstr : Bool → DbVal
deriving DecidableEq

/-- An entry of `past_items` after the source's `(r[0] or "")`
normalisation: a string, or a truthy non-string value on which string
operations (`.lower()`) raise. -/
inductive Item
  | txt : List Char → Item
  | bad : Item
deriving DecidableEq

/-- The three return shapes of `check_purchase_history`: the
"No past items found" message, the "already posted something similar:
'<text>'" message (carrying the quoted text), and the
"No close match" message. -/
inductive Verdict
  | noHistory : Verdict
  | Match : List Char → Verdict
  | noMatch : Verdict
deriving DecidableEq

/-- `(r[0] or "")`: a string stays itself (an empty string is falsy but
`or ""` re-supplies the empty string), a falsy non-string becomes `""`,
a truthy non-string is kept as the raising value. -/
def normEntry : DbVal → Item
  | DbVal.str s => Item.txt s
  | DbVal.nonstr true => Item.bad
  | DbVal.nonstr false => Item.txt []

/-- `past_items = [(r[0] or "") for r in rows]`. -/
def pastItems (rows : List DbVal) : List Item := rows.map normEntry

/-- Python `str.lower()` on a string value. -/
def lowerStr (s : List Char) : List Char := s.map Char.toLower

/-- `.lower()` on a `past_items` entry; `none` models the
`AttributeError` a non-string raises. -/
def lowerItem : Item → Option (List Char)
  | Item.txt s => some (lowerStr s)
  | Item.bad => none

/-- Length of the common prefix run of two strings: the size of the
matching block starting at a given pair of positions. -/
def runLen : List Char → List Char → Nat
  | a :: as, b :: bs => if a = b then runLen as bs + 1 else 0
  | _, _ => 0

/-- All start-position pairs, in the scan order of
`SequenceMatcher.find_longest_match` (ascending in `a`, then in `b`). -/
def pairList (la lb : Nat) : List (Nat × Nat) :=
  (List.range la).flatMap fun i => (List.range lb).map fun j => (i, j)

/-- One step of the longest-block search: replace the current best
`(i, j, size)` only on a strictly larger block, so the first maximal
block in scan order wins — difflib's tie rule (least start in `a`,
then least start in `b`). -/
def bestStep (a b : List Char) (cur : Nat × Nat × Nat) (ij : Nat × Nat) :
    Nat × Nat × Nat :=
  let k := runLen (a.drop ij.1) (b.drop ij.2)
  if cur.2.2 < k then (ij.1, ij.2, k) else cur

/-- `SequenceMatcher.find_longest_match` over the whole strings (no junk,
no autojunk): the longest matching block `(i, j, size)`, ties broken by
least `i` then least `j`. -/
def findLongestMatch (a b : List Char) : Nat × Nat × Nat :=
  (pairList a.length b.length).foldl (bestStep a b) (0, 0, 0)

/-- Total matched size of `get_matching_blocks`, fuelled.  Each recursive
call strictly shrinks the first string, so fuel `a.length` is enough:
when the fuel hits 0 the first string is already empty and the true
value is 0. -/
def msizeAux : Nat → List Char → List Char → Nat
  | 0, _, _ => 0
  | fuel + 1, a, b =>
    let r := findLongestMatch a b
    if r.2.2 = 0 then 0
    else
      msizeAux fuel (a.take r.1) (b.take r.2.1) + r.2.2 +
        msizeAux fuel (a.drop (r.1 + r.2.2)) (b.drop (r.2.1 + r.2.2))

/-- Total size of the matching blocks of two strings. -/
def matchingSize (a b : List Char) : Nat := msizeAux a.length a b

/-- `SequenceMatcher(None, a, b).ratio() = 2*M / (len a + len b)`,
and 1 when both strings are empty. -/
def ratioOf (a b : List Char) : ℚ :=
  if a.length + b.length = 0 then 1
  else mkRat (2 * (matchingSize a b : Int)) (a.length + b.length)

/-- Python string `<`: lexicographic by code point, a proper prefix is
smaller. -/
def strLt : List Char → List Char → Bool
  | [], [] => false
  | [], _ :: _ => true
  | _ :: _, [] => false
  | a :: as, b :: bs => if a = b then strLt as bs else decide (a < b)

/-- `(ratioOf x w, x) > (ratioOf cur w, cur)` — the strict tuple order
`max` uses inside `heapq.nlargest(1, ...)`. -/
def betterTup (w x cur : List Char) : Bool :=
  if ratioOf cur w < ratioOf x w then true
  else if ratioOf x w = ratioOf cur w then strLt cur x
  else false

/-- One step of Python's `max`: replace the current best only on a
strictly greater tuple, so the first maximal tuple wins. -/
def pickStep (w cur y : List Char) : List Char :=
  if betterTup w y cur then y else cur

/-- `max` over the `(ratio, name)` pairs of a name list (`none` on an
empty list, as `nlargest` then yields no element). -/
def maxFirst (w : List Char) : List (List Char) → Option (List Char)
  | [] => none
  | x :: rest => some (rest.foldl (pickStep w) x)

/-- `difflib.get_close_matches(word, names, n=1, cutoff)`:
`Except.error` models the `ValueError` on an out-of-range cutoff;
otherwise the best qualifying name, if any. -/
def getCloseMatches (word : List Char) (names : List (List Char))
    (cutoff : ℚ) : Except Unit (Option (List Char)) :=
  if 0 ≤ cutoff ∧ cutoff ≤ 1 then
    Except.ok (maxFirst word (names.filter fun x => decide (cutoff ≤ ratioOf x word)))
  else
    Except.error ()

/-- `names = [p.lower() for p in past_items]`: `none` models the
comprehension raising on the first non-string entry. -/
def lowerAll : List Item → Option (List (List Char))
  | [] => some []
  | p :: rest =>
    match lowerItem p, lowerAll rest with
    | some s, some l => some (s :: l)
    | _, _ => none

/-- `next((p for p in past_items if p.lower() == matched), matched)`:
scans `past_items` for the first entry whose lowercase equals `m`;
`none` models the generator raising on a non-string entry reached
before a hit; the generator default is `m` itself. -/
def origOfE : List Item → List Char → Option (List Char)
  | [], m => some m
  | Item.bad :: _, _ => none
  | Item.txt s :: rest, m => if lowerStr s = m then some s else origOfE rest m

/-- The whole `try:` block of stage 1.  `none` means the stage fell
through: an exception was caught (non-string entry while building
`names` or recovering the original, or `ValueError` from the cutoff) or
`get_close_matches` returned no name. -/
def stage1try (pastL : List Item) (cand : List Char) (t : ℚ) :
    Option Verdict :=
  match lowerAll pastL with
  | none => none
  | some names =>
    match getCloseMatches (lowerStr cand) names t with
    | Except.error _ => none
    | Except.ok none => none
    | Except.ok (some m) =>
      match origOfE pastL m with
      | none => none
      | some o => some (Verdict.Match o)

/-- Stage 2, the fallback linear scan: first entry whose lowered text has
ratio ≥ threshold against the lowered candidate; a per-entry exception
(`continue`) skips non-string entries. -/
def stage2 : List Item → List Char → ℚ → Verdict
  | [], _, _ => Verdict.noMatch
  | Item.bad :: rest, cand, t => stage2 rest cand t
  | Item.txt s :: rest, cand, t =>
    if t ≤ ratioOf (lowerStr s) (lowerStr cand) then Verdict.Match s
    else stage2 rest cand t

/-- `check_purchase_history`, as a function of the fetched `item_name`
values, the candidate name and the threshold. -/
def check_purchase_history (rows : List DbVal) (item_name : List Char)
    (threshold : ℚ) : Verdict :=
  let pastL := pastItems rows
  if pastL.isEmpty then Verdict.noHistory
  else
    match stage1try pastL item_name threshold with
    | some v => v
    | none => stage2 pastL item_name threshold

/-- Spec-side rendering of §4.1 stage 2 (for comparison with the code's
`stage2`): does an entry's lowered text clear the threshold? -/
def entryQualifies (cand : List Char) (t : ℚ) : Item → Bool
  | Item.txt s => decide (t ≤ ratioOf (lowerStr s) (lowerStr cand))
  | Item.bad => false

/-- Spec-side stage 2, written with `find?` after §4.1: `Match` on the
first qualifying entry of the history, else `NoMatch`. -/
def specScan (pastL : List Item) (cand : List Char) (t : ℚ) : Verdict :=
  match pastL.find? (entryQualifies cand t) with
  | some (Item.txt s) => Verdict.Match s
  | _ => Verdict.noMatch

/-- Spec-side stage-1 selection exactly as §4.1 words it: keep the names
whose ratio is ≥ threshold, pick the highest-ratio one, ties broken by
first occurrence in the supplied order (replace only on a strictly
higher ratio). -/
def specPickFirstOcc (w : List Char) (t : ℚ) (names : List (List Char)) :
    Option (List Char) :=
  match names.filter (fun x => decide (t ≤ ratioOf x w)) with
  | [] => none
  | x :: rest =>
    some (rest.foldl (fun cur y => if ratioOf cur w < ratioOf y w then y else cur) x)

/-- First history entry whose lowercase equals `m`, in original casing
(spec side: "report the original-case text"). -/
def firstWithLower : List Item → List Char → Option (List Char)
  | [], _ => none
  | Item.bad :: rest, m => firstWithLower rest m
  | Item.txt s :: rest, m =>
    if lowerStr s = m then some s else firstWithLower rest m

/-! ## Fold and longest-match lemmas -/

theorem foldl_inv {α β : Type _} {f : β → α → β} {P : β → Prop} :
    ∀ (l : List α) (b : β), P b → (∀ c a, a ∈ l → P c → P (f c a)) →
      P (l.foldl f b)
  | [], _, hb, _ => hb
  | a :: l, b, hb, hf =>
    foldl_inv l (f b a) (hf b a (List.mem_cons_self a l) hb)
      (fun c x hx hc => hf c x (List.mem_cons_of_mem a hx) hc)

theorem runLen_le_left : ∀ a b : List Char, runLen a b ≤ a.length
  | [], _ => by simp [runLen]
  | _ :: _, [] => by simp [runLen]
  | a :: as, b :: bs => by
    simp only [runLen, List.length_cons]
    split
    · exact Nat.succ_le_succ (runLen_le_left as bs)
    · exact Nat.zero_le _

theorem runLen_le_right : ∀ a b : List Char, runLen a b ≤ b.length
  | [], _ => by simp [runLen]
  | _ :: _, [] => by simp [runLen]
  | a :: as, b :: bs => by
    simp only [runLen, List.length_cons]
    split
    · exact Nat.succ_le_succ (runLen_le_right as bs)
    · exact Nat.zero_le _

theorem runLen_self : ∀ a : List Char, runLen a a = a.length
  | [] => rfl
  | a :: as => by simp [runLen, runLen_self as]

theorem mem_pairList {la lb : Nat} {p : Nat × Nat} :
    p ∈ pairList la lb ↔ p.1 < la ∧ p.2 < lb := by
  rcases p with ⟨i, j⟩
  simp only [pairList, List.mem_flatMap, List.mem_map, List.mem_range,
    Prod.mk.injEq]
  constructor
  · rintro ⟨i', hi', j', hj', hi, hj⟩
    subst hi; subst hj; exact ⟨hi', hj'⟩
  · rintro ⟨hi, hj⟩
    exact ⟨i, hi, j, hj, rfl, rfl⟩

theorem flm_bounds (a b : List Char) :
    (findLongestMatch a b).1 + (findLongestMatch a b).2.2 ≤ a.length ∧
      (findLongestMatch a b).2.1 + (findLongestMatch a b).2.2 ≤ b.length := by
  unfold findLongestMatch
  refine foldl_inv
    (P := fun t : Nat × Nat × Nat =>
      t.1 + t.2.2 ≤ a.length ∧ t.2.1 + t.2.2 ≤ b.length)
    _ _ (by simp) ?_
  intro c p hp hc
  have hij := mem_pairList.1 hp
  simp only [bestStep]
  split
  · have h1 := runLen_le_left (a.drop p.1) (b.drop p.2)
    have h2 := runLen_le_right (a.drop p.1) (b.drop p.2)
    simp only [List.length_drop] at h1 h2
    dsimp only
    exact ⟨by omega, by omega⟩
  · exact hc

theorem bestStep_k_le (a b : List Char) (cur : Nat × Nat × Nat)
    (p : Nat × Nat) : cur.2.2 ≤ (bestStep a b cur p).2.2 := by
  simp only [bestStep]
  split
  · dsimp only
    omega
  · exact le_refl _

theorem runLen_le_bestStep (a b : List Char) (cur : Nat × Nat × Nat)
    (p : Nat × Nat) :
    runLen (a.drop p.1) (b.drop p.2) ≤ (bestStep a b cur p).2.2 := by
  simp only [bestStep]
  split
  · exact le_refl _
  · omega

theorem foldl_bestStep_k_le (a b : List Char) :
    ∀ (l : List (Nat × Nat)) (cur : Nat × Nat × Nat),
      cur.2.2 ≤ ((l.foldl (bestStep a b) cur)).2.2
  | [], _ => le_refl _
  | p :: l, cur =>
    le_trans (bestStep_k_le a b cur p) (foldl_bestStep_k_le a b l _)

theorem runLen_le_foldl_bestStep (a b : List Char) :
    ∀ (l : List (Nat × Nat)) (cur : Nat × Nat × Nat) (p : Nat × Nat),
      p ∈ l → runLen (a.drop p.1) (b.drop p.2) ≤
        ((l.foldl (bestStep a b) cur)).2.2 := by
  intro l
  induction l with
  | nil => intro cur p hp; cases hp
  | cons q l ih =>
    intro cur p hp
    rcases List.mem_cons.1 hp with h | h
    · subst h
      exact le_trans (runLen_le_bestStep a b cur p)
        (foldl_bestStep_k_le a b l _)
    · exact ih _ p h

theorem flm_max (a b : List Char) {i j : Nat} (hi : i < a.length)
    (hj : j < b.length) :
    runLen (a.drop i) (b.drop j) ≤ (findLongestMatch a b).2.2 := by
  unfold findLongestMatch
  exact runLen_le_foldl_bestStep a b _ _ (i, j) (mem_pairList.2 ⟨hi, hj⟩)

theorem msizeAux_le (fuel : Nat) :
    ∀ a b : List Char, msizeAux fuel a b ≤ a.length ∧
      msizeAux fuel a b ≤ b.length := by
  induction fuel with
  | zero => intro a b; simp [msizeAux]
  | succ n ih =>
    intro a b
    simp only [msizeAux]
    split
    · simp
    · obtain ⟨hb1, hb2⟩ := flm_bounds a b
      obtain ⟨l1, r1⟩ := ih (a.take (findLongestMatch a b).1)
        (b.take (findLongestMatch a b).2.1)
      obtain ⟨l2, r2⟩ := ih
        (a.drop ((findLongestMatch a b).1 + (findLongestMatch a b).2.2))
        (b.drop ((findLongestMatch a b).2.1 + (findLongestMatch a b).2.2))
      have t1 : (a.take (findLongestMatch a b).1).length ≤
          (findLongestMatch a b).1 := by
        simp [List.length_take]
      have t2 : (b.take (findLongestMatch a b).2.1).length ≤
          (findLongestMatch a b).2.1 := by
        simp [List.length_take]
      simp only [List.length_drop] at l2 r2
      omega

theorem matchingSize_le_left (a b : List Char) :
    matchingSize a b ≤ a.length := (msizeAux_le _ a b).1

theorem matchingSize_le_right (a b : List Char) :
    matchingSize a b ≤ b.length := (msizeAux_le _ a b).2

theorem msizeAux_nil (fuel : Nat) (b : List Char) :
    msizeAux fuel [] b = 0 :=
  Nat.le_zero.1 (by simpa using (msizeAux_le fuel [] b).1)

theorem findLongestMatch_self {a : List Char} (h : a ≠ []) :
    findLongestMatch a a = (0, 0, a.length) := by
  have hl : 0 < a.length := List.length_pos.2 h
  have hmax : a.length ≤ (findLongestMatch a a).2.2 := by
    have := flm_max (a := a) (b := a) hl hl
    simpa [runLen_self] using this
  obtain ⟨hb1, hb2⟩ := flm_bounds a a
  have e1 : (findLongestMatch a a).2.2 = a.length := by omega
  have e2 : (findLongestMatch a a).1 = 0 := by omega
  have e3 : (findLongestMatch a a).2.1 = 0 := by omega
  calc findLongestMatch a a
      = ((findLongestMatch a a).1, (findLongestMatch a a).2.1,
          (findLongestMatch a a).2.2) := rfl
    _ = (0, 0, a.length) := by rw [e1, e2, e3]

theorem matchingSize_self (a : List Char) : matchingSize a a = a.length := by
  rcases a with _ | ⟨x, xs⟩
  · rfl
  · have hne : (x :: xs) ≠ ([] : List Char) := by simp
    show msizeAux ((x :: xs).length) (x :: xs) (x :: xs) = (x :: xs).length
    rw [List.length_cons]
    simp only [msizeAux, findLongestMatch_self hne]
    rw [if_neg (by simp)]
    simp [msizeAux_nil, List.drop_length]

/-! ## Ratio lemmas -/

theorem ratioOf_nonneg (a b : List Char) : 0 ≤ ratioOf a b := by
  unfold ratioOf
  split
  · exact zero_le_one
  · rw [Rat.mkRat_eq_div]
    positivity

theorem ratioOf_le_one (a b : List Char) : ratioOf a b ≤ 1 := by
  unfold ratioOf
  split
  · exact le_refl 1
  · rename_i h
    rw [Rat.mkRat_eq_div]
    have hpos : (0 : ℚ) < ((a.length + b.length : ℕ) : ℚ) := by
      exact_mod_cast Nat.pos_of_ne_zero h
    rw [div_le_one hpos]
    have h1 := matchingSize_le_left a b
    have h2 := matchingSize_le_right a b
    have : 2 * matchingSize a b ≤ a.length + b.length := by omega
    push_cast
    exact_mod_cast this

theorem ratioOf_self (a : List Char) : ratioOf a a = 1 := by
  unfold ratioOf
  split
  · rfl
  · rename_i h
    rw [matchingSize_self, Rat.mkRat_eq_div]
    have hpos : ((a.length + a.length : ℕ) : ℚ) ≠ 0 := by
      exact_mod_cast h
    rw [div_eq_one_iff_eq hpos]
    push_cast
    ring

/-! ## String order and best-tuple selection lemmas -/

theorem strLt_irrefl : ∀ s : List Char, strLt s s = false
  | [] => rfl
  | a :: as => by simp [strLt, strLt_irrefl as]

theorem strLt_trans : ∀ a b c : List Char,
    strLt a b = true → strLt b c = true → strLt a c = true := by
  intro a
  induction a with
  | nil =>
    intro b c hab hbc
    cases b with
    | nil => simp [strLt] at hab
    | cons y ys =>
      cases c with
      | nil => simp [strLt] at hbc
      | cons z zs => simp [strLt]
  | cons x xs ih =>
    intro b c hab hbc
    cases b with
    | nil => simp [strLt] at hab
    | cons y ys =>
      cases c with
      | nil => simp [strLt] at hbc
      | cons z zs =>
        simp only [strLt] at hab hbc ⊢
        by_cases hxy : x = y
        · subst hxy
          rw [if_pos rfl] at hab
          by_cases hyz : x = z
          · subst hyz
            rw [if_pos rfl] at hbc
            rw [if_pos rfl]
            exact ih ys zs hab hbc
          · rw [if_neg hyz] at hbc
            rw [if_neg hyz]
            exact hbc
        · rw [if_neg hxy] at hab
          by_cases hyz : y = z
          · subst hyz
            rw [if_neg hxy]
            exact hab
          · rw [if_neg hyz] at hbc
            have hxz : x < z :=
              lt_trans (of_decide_eq_true hab) (of_decide_eq_true hbc)
            rw [if_neg (ne_of_lt hxz)]
            exact decide_eq_true hxz

theorem betterTup_irrefl (w x : List Char) : betterTup w x x = false := by
  simp [betterTup, strLt_irrefl]

theorem betterTup_eq_true_iff (w x cur : List Char) :
    betterTup w x cur = true ↔
      (ratioOf cur w < ratioOf x w ∨
        (ratioOf x w = ratioOf cur w ∧ strLt cur x = true)) := by
  unfold betterTup
  split
  · rename_i h
    simpa using Or.inl h
  · rename_i h
    split
    · rename_i he
      simp [he, h]
    · rename_i he
      simp [h, he]

theorem betterTup_eq_false_iff (w y m : List Char) :
    betterTup w y m = false ↔
      (ratioOf y w < ratioOf m w ∨
        (ratioOf y w = ratioOf m w ∧ strLt m y = false)) := by
  unfold betterTup
  split
  · rename_i hlt
    simp [lt_asymm hlt, ne_of_gt hlt]
  · rename_i hne
    split
    · rename_i heq
      simp [heq]
    · rename_i hneq
      have hlt : ratioOf y w < ratioOf m w :=
        lt_of_le_of_ne (not_lt.1 hne) hneq
      simp [hlt]

theorem betterTup_trans (w x y z : List Char)
    (h1 : betterTup w x y = true) (h2 : betterTup w y z = true) :
    betterTup w x z = true := by
  rw [betterTup_eq_true_iff] at h1 h2 ⊢
  rcases h1 with h1 | ⟨h1e, h1s⟩
  · rcases h2 with h2 | ⟨h2e, h2s⟩
    · exact Or.inl (lt_trans h2 h1)
    · exact Or.inl (h2e ▸ h1)
  · rcases h2 with h2 | ⟨h2e, h2s⟩
    · exact Or.inl (h1e ▸ h2)
    · exact Or.inr ⟨h1e.trans h2e, strLt_trans z y x h2s h1s⟩

theorem foldl_pickStep_mem (w : List Char) (l : List (List Char)) :
    ∀ x : List Char,
      l.foldl (pickStep w) x = x ∨ l.foldl (pickStep w) x ∈ l := by
  induction l with
  | nil => intro x; exact Or.inl rfl
  | cons y l ih =>
    intro x
    rw [List.foldl_cons]
    rcases ih (pickStep w x y) with h | h
    · rw [h]
      unfold pickStep
      split
      · exact Or.inr (List.mem_cons_self _ _)
      · exact Or.inl rfl
    · exact Or.inr (List.mem_cons_of_mem _ h)

theorem foldl_pickStep_preserve (w z : List Char) (l : List (List Char)) :
    ∀ cur : List Char, betterTup w z cur = false →
      betterTup w z (l.foldl (pickStep w) cur) = false := by
  induction l with
  | nil => intro cur h; simpa using h
  | cons y l ih =>
    intro cur h
    rw [List.foldl_cons]
    apply ih
    unfold pickStep
    split
    · rename_i hb
      cases hzy : betterTup w z y with
      | false => rfl
      | true =>
        have h2 := betterTup_trans w z y cur hzy hb
        rw [h2] at h
        exact Bool.noConfusion h
    · exact h

theorem foldl_pickStep_ub (w : List Char) (l : List (List Char)) :
    ∀ cur y : List Char, y ∈ l →
      betterTup w y (l.foldl (pickStep w) cur) = false := by
  induction l with
  | nil => intro cur y hy; exact absurd hy (List.not_mem_nil y)
  | cons q l ih =>
    intro cur y hy
    rw [List.foldl_cons]
    rcases List.mem_cons.1 hy with h | h
    · subst h
      apply foldl_pickStep_preserve
      unfold pickStep
      split
      · exact betterTup_irrefl w y
      · rename_i hb
        simpa using hb
    · exact ih _ y h

theorem maxFirst_spec {w : List Char} {l : List (List Char)}
    {m : List Char} (h : maxFirst w l = some m) :
    m ∈ l ∧ ∀ y ∈ l, betterTup w y m = false := by
  cases l with
  | nil => cases h
  | cons x rest =>
    simp only [maxFirst, Option.some.injEq] at h
    subst h
    constructor
    · rcases foldl_pickStep_mem w rest x with h | h
      · rw [h]; exact List.mem_cons_self _ _
      · exact List.mem_cons_of_mem _ h
    · intro y hy
      rcases List.mem_cons.1 hy with h | h
      · rw [h]
        exact foldl_pickStep_preserve w x rest x (betterTup_irrefl w x)
      · exact foldl_pickStep_ub w rest x y h

theorem maxFirst_isSome {w : List Char} {l : List (List Char)}
    (h : l ≠ []) : ∃ m, maxFirst w l = some m := by
  cases l with
  | nil => exact absurd rfl h
  | cons x rest => exact ⟨_, rfl⟩

/-! ## Lowering and original-text recovery lemmas -/

theorem lowerAll_cons_some {q : Item} {rest : List Item}
    {names : List (List Char)} (h : lowerAll (q :: rest) = some names) :
    ∃ s l, q = Item.txt s ∧ lowerAll rest = some l ∧
      names = lowerStr s :: l := by
  cases q with
  | bad => simp [lowerAll, lowerItem] at h
  | txt s =>
    cases hrest : lowerAll rest with
    | none => simp [lowerAll, lowerItem, hrest] at h
    | some l =>
      have he : lowerAll (Item.txt s :: rest) = some (lowerStr s :: l) := by
        simp [lowerAll, lowerItem, hrest]
      rw [he] at h
      injection h with h
      exact ⟨s, l, rfl, rfl, h.symm⟩

theorem lowerAll_no_bad {pastL : List Item} {names : List (List Char)}
    (h : lowerAll pastL = some names) :
    ∀ p ∈ pastL, ∃ s, p = Item.txt s := by
  induction pastL generalizing names with
  | nil => intro p hp; cases hp
  | cons q rest ih =>
    intro p hp
    obtain ⟨s, l, rfl, hrest, rfl⟩ := lowerAll_cons_some h
    rcases List.mem_cons.1 hp with h1 | h1
    · exact ⟨s, h1⟩
    · exact ih hrest p h1

theorem lowerAll_mem {pastL : List Item} {names : List (List Char)}
    (h : lowerAll pastL = some names) {x : List Char} :
    x ∈ names ↔ ∃ s, Item.txt s ∈ pastL ∧ lowerStr s = x := by
  induction pastL generalizing names with
  | nil =>
    simp only [lowerAll] at h
    injection h with h
    subst h
    simp
  | cons q rest ih =>
    obtain ⟨s, l, rfl, hrest, rfl⟩ := lowerAll_cons_some h
    simp only [List.mem_cons]
    constructor
    · rintro (h1 | h1)
      · exact ⟨s, Or.inl rfl, h1.symm⟩
      · obtain ⟨s', hs', hx⟩ := (ih hrest).1 h1
        exact ⟨s', Or.inr hs', hx⟩
    · rintro ⟨s', hs', hx⟩
      rcases hs' with h1 | h1
      · injection h1 with h1
        subst h1
        exact Or.inl hx.symm
      · exact Or.inr ((ih hrest).2 ⟨s', h1, hx⟩)

theorem origOfE_spec {pastL : List Item}
    (hnb : ∀ p ∈ pastL, ∃ s, p = Item.txt s) {m s0 : List Char}
    (hmem : Item.txt s0 ∈ pastL) (hlow : lowerStr s0 = m) :
    ∃ o, origOfE pastL m = some o ∧ firstWithLower pastL m = some o ∧
      Item.txt o ∈ pastL ∧ lowerStr o = m := by
  induction pastL with
  | nil => cases hmem
  | cons q rest ih =>
    obtain ⟨s, rfl⟩ := hnb q (List.mem_cons_self q rest)
    by_cases hs : lowerStr s = m
    · exact ⟨s, by simp [origOfE, hs], by simp [firstWithLower, hs],
        List.mem_cons_self _ _, hs⟩
    · have hmem' : Item.txt s0 ∈ rest := by
        rcases List.mem_cons.1 hmem with h1 | h1
        · injection h1 with h1
          subst h1
          exact absurd hlow hs
        · exact h1
      obtain ⟨o, h1, h2, h3, h4⟩ :=
        ih (fun p hp => hnb p (List.mem_cons_of_mem _ hp)) hmem'
      exact ⟨o, by simp [origOfE, hs, h1], by simp [firstWithLower, hs, h2],
        List.mem_cons_of_mem _ h3, h4⟩

/-! ## Stage-2 lemmas -/

theorem stage2_eq_specScan (pastL : List Item) (cand : List Char) (t : ℚ) :
    stage2 pastL cand t = specScan pastL cand t := by
  induction pastL with
  | nil => rfl
  | cons q rest ih =>
    cases q with
    | bad =>
      show stage2 rest cand t = specScan (Item.bad :: rest) cand t
      rw [ih]
      unfold specScan
      rw [List.find?_cons_of_neg _ (by simp [entryQualifies])]
    | txt s =>
      by_cases hq : t ≤ ratioOf (lowerStr s) (lowerStr cand)
      · show (if t ≤ ratioOf (lowerStr s) (lowerStr cand) then
            Verdict.Match s else stage2 rest cand t) = _
        rw [if_pos hq]
        unfold specScan
        rw [List.find?_cons_of_pos _ (by simp [entryQualifies, hq])]
      · show (if t ≤ ratioOf (lowerStr s) (lowerStr cand) then
            Verdict.Match s else stage2 rest cand t) = _
        rw [if_neg hq, ih]
        unfold specScan
        rw [List.find?_cons_of_neg _ (by simp [entryQualifies, hq])]

theorem stage2_match_mem {pastL : List Item} {cand s : List Char} {t : ℚ}
    (h : stage2 pastL cand t = Verdict.Match s) :
    Item.txt s ∈ pastL ∧ t ≤ ratioOf (lowerStr s) (lowerStr cand) := by
  induction pastL with
  | nil => cases h
  | cons q rest ih =>
    cases q with
    | bad =>
      obtain ⟨h1, h2⟩ := ih h
      exact ⟨List.mem_cons_of_mem _ h1, h2⟩
    | txt s' =>
      by_cases hq : t ≤ ratioOf (lowerStr s') (lowerStr cand)
      · have h' : Verdict.Match s' = Verdict.Match s := by
          rw [← h]
          show _ = (if t ≤ ratioOf (lowerStr s') (lowerStr cand) then
            Verdict.Match s' else stage2 rest cand t)
          rw [if_pos hq]
        injection h' with h'
        subst h'
        exact ⟨List.mem_cons_self _ _, hq⟩
      · have h' : stage2 rest cand t = Verdict.Match s := by
          rw [← h]
          show _ = (if t ≤ ratioOf (lowerStr s') (lowerStr cand) then
            Verdict.Match s' else stage2 rest cand t)
          rw [if_neg hq]
        obtain ⟨h1, h2⟩ := ih h'
        exact ⟨List.mem_cons_of_mem _ h1, h2⟩

theorem stage2_fires {pastL : List Item} {cand : List Char} {t : ℚ}
    (h : ∃ s, Item.txt s ∈ pastL ∧ t ≤ ratioOf (lowerStr s) (lowerStr cand)) :
    ∃ s, stage2 pastL cand t = Verdict.Match s := by
  induction pastL with
  | nil =>
    obtain ⟨s, hs, _⟩ := h
    cases hs
  | cons q rest ih =>
    obtain ⟨s, hs, hq⟩ := h
    cases q with
    | bad =>
      have hs' : Item.txt s ∈ rest := by
        rcases List.mem_cons.1 hs with h1 | h1
        · cases h1
        · exact h1
      exact ih ⟨s, hs', hq⟩
    | txt s' =>
      by_cases hq' : t ≤ ratioOf (lowerStr s') (lowerStr cand)
      · refine ⟨s', ?_⟩
        show (if t ≤ ratioOf (lowerStr s') (lowerStr cand) then
          Verdict.Match s' else stage2 rest cand t) = _
        rw [if_pos hq']
      · have hs' : Item.txt s ∈ rest := by
          rcases List.mem_cons.1 hs with h1 | h1
          · injection h1 with h1
            subst h1
            exact absurd hq hq'
          · exact h1
        obtain ⟨s0, h0⟩ := ih ⟨s, hs', hq⟩
        refine ⟨s0, ?_⟩
        show (if t ≤ ratioOf (lowerStr s') (lowerStr cand) then
          Verdict.Match s' else stage2 rest cand t) = _
        rw [if_neg hq']
        exact h0

theorem stage2_noMatch_of_gt_one {pastL : List Item} {cand : List Char}
    {t : ℚ} (h : 1 < t) : stage2 pastL cand t = Verdict.noMatch := by
  induction pastL with
  | nil => rfl
  | cons q rest ih =>
    cases q with
    | bad => exact ih
    | txt s =>
      show (if t ≤ ratioOf (lowerStr s) (lowerStr cand) then
        Verdict.Match s else stage2 rest cand t) = _
      rw [if_neg (not_le.2 (lt_of_le_of_lt (ratioOf_le_one _ _) h))]
      exact ih

theorem stage2_all_bad {pastL : List Item} {cand : List Char} {t : ℚ}
    (h : ∀ p ∈ pastL, p = Item.bad) :
    stage2 pastL cand t = Verdict.noMatch := by
  induction pastL with
  | nil => rfl
  | cons q rest ih =>
    have hq := h q (List.mem_cons_self q rest)
    subst hq
    exact ih fun p hp => h p (List.mem_cons_of_mem _ hp)

/-! ## Stage-1 lemmas -/

theorem stage1try_none_of_out_of_range {pastL : List Item}
    {cand : List Char} {t : ℚ} (h : ¬(0 ≤ t ∧ t ≤ 1)) :
    stage1try pastL cand t = none := by
  unfold stage1try
  cases hl : lowerAll pastL with
  | none => rfl
  | some names =>
    simp only [getCloseMatches, if_neg h]

theorem stage1try_eq_of_ok {pastL : List Item} {cand : List Char} {t : ℚ}
    {names : List (List Char)} (hl : lowerAll pastL = some names)
    (h0 : 0 ≤ t) (h1 : t ≤ 1) :
    stage1try pastL cand t =
      (match maxFirst (lowerStr cand)
          (names.filter fun x => decide (t ≤ ratioOf x (lowerStr cand))) with
        | none => none
        | some m =>
          match origOfE pastL m with
          | none => none
          | some o => some (Verdict.Match o)) := by
  simp only [stage1try, getCloseMatches, hl, if_pos (And.intro h0 h1)]
  cases maxFirst (lowerStr cand)
      (names.filter fun x => decide (t ≤ ratioOf x (lowerStr cand))) with
  | none => rfl
  | some m => rfl

theorem stage1try_fires {pastL : List Item} {cand : List Char} {t : ℚ}
    {ns : List (List Char)} {x : List Char}
    (hl : lowerAll pastL = some ns) (hx : x ∈ ns) (h0 : 0 ≤ t) (h1 : t ≤ 1)
    (hq : t ≤ ratioOf x (lowerStr cand)) :
    ∃ o, stage1try pastL cand t = some (Verdict.Match o) ∧
      Item.txt o ∈ pastL := by
  have hxf : x ∈ ns.filter (fun y => decide (t ≤ ratioOf y (lowerStr cand))) :=
    List.mem_filter.2 ⟨hx, decide_eq_true hq⟩
  obtain ⟨m, hm⟩ :=
    maxFirst_isSome (w := lowerStr cand) (List.ne_nil_of_mem hxf)
  have hmn : m ∈ ns := (List.mem_filter.1 (maxFirst_spec hm).1).1
  obtain ⟨s0, hs0, hls0⟩ := (lowerAll_mem hl).1 hmn
  obtain ⟨o, ho, _, homem, _⟩ := origOfE_spec (lowerAll_no_bad hl) hs0 hls0
  refine ⟨o, ?_, homem⟩
  rw [stage1try_eq_of_ok hl h0 h1]
  simp only [hm, ho]

theorem stage1try_some_inv {pastL : List Item} {cand : List Char} {t : ℚ}
    {v : Verdict} (h : stage1try pastL cand t = some v) :
    ∃ names m o, lowerAll pastL = some names ∧ 0 ≤ t ∧ t ≤ 1 ∧
      maxFirst (lowerStr cand)
        (names.filter fun x => decide (t ≤ ratioOf x (lowerStr cand)))
        = some m ∧
      origOfE pastL m = some o ∧ v = Verdict.Match o := by
  by_cases hr : 0 ≤ t ∧ t ≤ 1
  · cases hl : lowerAll pastL with
    | none =>
      unfold stage1try at h
      rw [hl] at h
      cases h
    | some names =>
      rw [stage1try_eq_of_ok hl hr.1 hr.2] at h
      cases hm : maxFirst (lowerStr cand)
          (names.filter fun x => decide (t ≤ ratioOf x (lowerStr cand))) with
      | none =>
        rw [hm] at h
        cases h
      | some m =>
        rw [hm] at h
        cases ho : origOfE pastL m with
        | none =>
          simp only [ho] at h
          cases h
        | some o =>
          simp only [ho, Option.some.injEq] at h
          exact ⟨names, m, o, rfl, hr.1, hr.2, hm, ho, h.symm⟩
  · rw [stage1try_none_of_out_of_range hr] at h
    cases h

theorem stage1try_some_match {pastL : List Item} {cand : List Char} {t : ℚ}
    {v : Verdict} (h : stage1try pastL cand t = some v) :
    ∃ o, v = Verdict.Match o ∧ Item.txt o ∈ pastL := by
  obtain ⟨names, m, o, hl, h0, h1, hm, ho, hv⟩ := stage1try_some_inv h
  have hmn : m ∈ names := (List.mem_filter.1 (maxFirst_spec hm).1).1
  obtain ⟨s0, hs0, hls0⟩ := (lowerAll_mem hl).1 hmn
  obtain ⟨o', ho', _, homem, _⟩ := origOfE_spec (lowerAll_no_bad hl) hs0 hls0
  rw [ho'] at ho
  injection ho with ho
  exact ⟨o, hv, ho ▸ homem⟩

theorem stage1try_none_of_lowerAll_none {pastL : List Item}
    {cand : List Char} {t : ℚ} (hl : lowerAll pastL = none) :
    stage1try pastL cand t = none := by
  unfold stage1try
  rw [hl]

/-! ## Top-level unfolding -/

theorem check_nil (cand : List Char) (t : ℚ) :
    check_purchase_history [] cand t = Verdict.noHistory := rfl

theorem check_cons (r : DbVal) (rows : List DbVal) (cand : List Char)
    (t : ℚ) :
    check_purchase_history (r :: rows) cand t =
      (match stage1try (pastItems (r :: rows)) cand t with
        | some v => v
        | none => stage2 (pastItems (r :: rows)) cand t) := rfl

/-- If some history entry's lowered text clears the threshold, the matcher
returns a Match (through stage 1 when the threshold is in range and every
entry lowers, through stage 2 otherwise). -/
theorem check_match_of_qualifier {rows : List DbVal} {cand : List Char}
    {t : ℚ}
    (hq : ∃ s, Item.txt s ∈ pastItems rows ∧
      t ≤ ratioOf (lowerStr s) (lowerStr cand)) :
    ∃ m, check_purchase_history rows cand t = Verdict.Match m := by
  cases rows with
  | nil =>
    obtain ⟨s, hs, _⟩ := hq
    cases hs
  | cons r rest =>
    by_cases hr : 0 ≤ t ∧ t ≤ 1
    · cases hl : lowerAll (pastItems (r :: rest)) with
      | none =>
        have hs1 : stage1try (pastItems (r :: rest)) cand t = none :=
          stage1try_none_of_lowerAll_none hl
        obtain ⟨m, hm⟩ := stage2_fires hq
        refine ⟨m, ?_⟩
        rw [check_cons, hs1]
        exact hm
      | some names =>
        obtain ⟨s, hs, hsr⟩ := hq
        have hx : lowerStr s ∈ names := (lowerAll_mem hl).2 ⟨s, hs, rfl⟩
        obtain ⟨o, ho, _⟩ := stage1try_fires hl hx hr.1 hr.2 hsr
        refine ⟨o, ?_⟩
        rw [check_cons, ho]
    · have hs1 : stage1try (pastItems (r :: rest)) cand t = none :=
        stage1try_none_of_out_of_range hr
      obtain ⟨m, hm⟩ := stage2_fires hq
      refine ⟨m, ?_⟩
      rw [check_cons, hs1]
      exact hm

/-- Conversely, a Match verdict always exhibits a qualifying entry. -/
theorem check_match_qualifier {rows : List DbVal} {cand s : List Char}
    {t : ℚ} (h : check_purchase_history rows cand t = Verdict.Match s) :
    ∃ s', Item.txt s' ∈ pastItems rows ∧
      t ≤ ratioOf (lowerStr s') (lowerStr cand) := by
  cases rows with
  | nil => cases h
  | cons r rest =>
    rw [check_cons] at h
    cases hs1 : stage1try (pastItems (r :: rest)) cand t with
    | some v =>
      obtain ⟨names, m, o, hl, h0, h1, hm, ho, hvo⟩ := stage1try_some_inv hs1
      have hmf := (maxFirst_spec hm).1
      have hmn : m ∈ names := (List.mem_filter.1 hmf).1
      have hmq : t ≤ ratioOf m (lowerStr cand) :=
        of_decide_eq_true (List.mem_filter.1 hmf).2
      obtain ⟨s0, hs0, hls0⟩ := (lowerAll_mem hl).1 hmn
      exact ⟨s0, hs0, by rw [hls0]; exact hmq⟩
    | none =>
      rw [hs1] at h
      have h' : stage2 (pastItems (r :: rest)) cand t = Verdict.Match s := h
      obtain ⟨h1, h2⟩ := stage2_match_mem h'
      exact ⟨s, h1, h2⟩

/-! ## The claims -/

/-- C1 counterexample: an empty candidate against a history containing the
empty string is reported as a Match (their ratio is 1.0), not degraded to
a no-match verdict as the claim states for empty/whitespace candidates. -/
theorem c1_counterexample :
    check_purchase_history [DbVal.str "".toList] "".toList (mkRat 3 5)
        = Verdict.Match "".toList ∧
      Verdict.Match "".toList ≠ Verdict.noMatch ∧
      Verdict.Match "".toList ≠ Verdict.noHistory :=
  ⟨by decide, by decide, by decide⟩

/-- C1 (amended): the matcher returns one of the three verdicts for every
input — every internal exception is caught — and a comparison that raises
is treated as no similarity for that entry, so a non-empty history whose
entries are all non-string yields NoMatch rather than an error.  (An
empty or whitespace-only candidate, however, is not always a no-match: it
reports Match when some entry still has ratio ≥ threshold, e.g. an empty
history entry against an empty candidate.) -/
theorem c1_total_function (rows : List DbVal) (cand : List Char) (t : ℚ) :
    (check_purchase_history rows cand t = Verdict.noHistory ∨
      (∃ s, check_purchase_history rows cand t = Verdict.Match s) ∨
      check_purchase_history rows cand t = Verdict.noMatch) ∧
    (rows ≠ [] → (∀ r ∈ rows, r = DbVal.nonstr true) →
      check_purchase_history rows cand t = Verdict.noMatch) := by
  constructor
  · cases check_purchase_history rows cand t with
    | noHistory => exact Or.inl rfl
    | Match s => exact Or.inr (Or.inl ⟨s, rfl⟩)
    | noMatch => exact Or.inr (Or.inr rfl)
  · intro hne hall
    cases rows with
    | nil => exact absurd rfl hne
    | cons r rest =>
      have hr := hall r (List.mem_cons_self r rest)
      subst hr
      have hbad : ∀ p ∈ pastItems (DbVal.nonstr true :: rest),
          p = Item.bad := by
        intro p hp
        obtain ⟨rr, hrr, hrp⟩ := List.mem_map.1 hp
        rw [hall rr hrr] at hrp
        exact hrp.symm
      have hs1 : stage1try (pastItems (DbVal.nonstr true :: rest)) cand t
          = none := rfl
      rw [check_cons, hs1]
      exact stage2_all_bad hbad

/-- Witness for C1: a non-empty all-non-string history yields NoMatch. -/
theorem c1_total_function_witness :
    check_purchase_history [DbVal.nonstr true] "Headphones".toList
      (mkRat 3 5) = Verdict.noMatch :=
  (c1_total_function [DbVal.nonstr true] "Headphones".toList
    (mkRat 3 5)).2 (by decide) (by decide)

/-- C2 counterexample: with history ["ac", "ax"] and candidate "ab" at
threshold 1/2, both entries have ratio exactly 1/2; the claim's stage-1
selection (ties to first occurrence) picks "ac", but the matcher returns
Match "ax" — `get_close_matches(..., n=1, ...)` breaks equal-ratio ties
by the lexicographically greatest name, not by history order. -/
theorem c2_counterexample :
    ratioOf "ac".toList (lowerStr "ab".toList) =
        ratioOf "ax".toList (lowerStr "ab".toList) ∧
      specPickFirstOcc (lowerStr "ab".toList) (mkRat 1 2)
        ["ac".toList, "ax".toList] = some "ac".toList ∧
      lowerAll (pastItems [DbVal.str "ac".toList, DbVal.str "ax".toList])
        = some ["ac".toList, "ax".toList] ∧
      check_purchase_history [DbVal.str "ac".toList, DbVal.str "ax".toList]
        "ab".toList (mkRat 1 2) = Verdict.Match "ax".toList ∧
      "ax".toList ≠ "ac".toList :=
  ⟨by decide, by decide, by decide, by decide, by decide⟩

/-- C2 (amended): for a history whose entries all lower (string entries)
and a threshold in [0, 1], if some lowered entry clears the threshold
then the matcher returns Match with the original text of the first
history entry whose lowercase equals the selected name `m`, where `m`
qualifies and is maximal in the (ratio, name) order: every qualifying
name has a strictly smaller ratio, or an equal ratio and is not
lexicographically greater than `m` (so equal-ratio ties between distinct
names go to the lexicographically greatest name, and first occurrence
only decides between identical lowered names). -/
theorem c2_stage1_selection (rows : List DbVal) (cand : List Char) (t : ℚ)
    (names : List (List Char)) (hl : lowerAll (pastItems rows) = some names)
    (h0 : 0 ≤ t) (h1 : t ≤ 1)
    (hex : ∃ x ∈ names, t ≤ ratioOf x (lowerStr cand)) :
    ∃ m o, m ∈ names ∧ t ≤ ratioOf m (lowerStr cand) ∧
      (∀ y ∈ names, t ≤ ratioOf y (lowerStr cand) →
        ratioOf y (lowerStr cand) < ratioOf m (lowerStr cand) ∨
          (ratioOf y (lowerStr cand) = ratioOf m (lowerStr cand) ∧
            strLt m y = false)) ∧
      firstWithLower (pastItems rows) m = some o ∧
      check_purchase_history rows cand t = Verdict.Match o := by
  obtain ⟨x, hx, hxq⟩ := hex
  have hxf : x ∈ names.filter
      (fun y => decide (t ≤ ratioOf y (lowerStr cand))) :=
    List.mem_filter.2 ⟨hx, decide_eq_true hxq⟩
  obtain ⟨m, hm⟩ :=
    maxFirst_isSome (w := lowerStr cand) (List.ne_nil_of_mem hxf)
  obtain ⟨hmf, hub⟩ := maxFirst_spec hm
  have hmn : m ∈ names := (List.mem_filter.1 hmf).1
  have hmq : t ≤ ratioOf m (lowerStr cand) :=
    of_decide_eq_true (List.mem_filter.1 hmf).2
  obtain ⟨s0, hs0, hls0⟩ := (lowerAll_mem hl).1 hmn
  obtain ⟨o, ho, hfwl, _, _⟩ := origOfE_spec (lowerAll_no_bad hl) hs0 hls0
  refine ⟨m, o, hmn, hmq, ?_, hfwl, ?_⟩
  · intro y hy hyq
    have hyf : y ∈ names.filter
        (fun z => decide (t ≤ ratioOf z (lowerStr cand))) :=
      List.mem_filter.2 ⟨hy, decide_eq_true hyq⟩
    exact (betterTup_eq_false_iff _ _ _).1 (hub y hyf)
  · cases rows with
    | nil =>
      have h2 : some ([] : List (List Char)) = some names := hl
      injection h2 with h2
      rw [← h2] at hx
      cases hx
    | cons r rest =>
      rw [check_cons, stage1try_eq_of_ok hl h0 h1]
      simp only [hm, ho]

/-- Witness for C2 (amended), at the counterexample's input. -/
theorem c2_stage1_selection_witness :
    ∃ m o, m ∈ [("ac".toList : List Char), "ax".toList] ∧
      mkRat 1 2 ≤ ratioOf m (lowerStr "ab".toList) ∧
      (∀ y ∈ [("ac".toList : List Char), "ax".toList],
        mkRat 1 2 ≤ ratioOf y (lowerStr "ab".toList) →
        ratioOf y (lowerStr "ab".toList) < ratioOf m (lowerStr "ab".toList) ∨
          (ratioOf y (lowerStr "ab".toList)
              = ratioOf m (lowerStr "ab".toList) ∧
            strLt m y = false)) ∧
      firstWithLower
          (pastItems [DbVal.str "ac".toList, DbVal.str "ax".toList]) m
        = some o ∧
      check_purchase_history [DbVal.str "ac".toList, DbVal.str "ax".toList]
        "ab".toList (mkRat 1 2) = Verdict.Match o :=
  c2_stage1_selection _ _ _ _ (by decide) (by decide) (by decide)
    ⟨"ac".toList, by decide, by decide⟩

/-- C3: stage-1 precedence and stage-2 fallback: whenever stage 1 yields a
verdict the matcher returns it unchanged; otherwise the matcher equals
the spec's fallback scan — Match on the first history entry whose ratio
against the candidate (both lowercased) is ≥ threshold, and NoMatch when
no entry qualifies. -/
theorem c3_precedence_and_fallback (rows : List DbVal) (cand : List Char)
    (t : ℚ) (hne : rows ≠ []) :
    (∀ v, stage1try (pastItems rows) cand t = some v →
      check_purchase_history rows cand t = v) ∧
    (stage1try (pastItems rows) cand t = none →
      check_purchase_history rows cand t
        = specScan (pastItems rows) cand t) := by
  cases rows with
  | nil => exact absurd rfl hne
  | cons r rest =>
    constructor
    · intro v hv
      rw [check_cons, hv]
    · intro hv
      rw [check_cons, hv]
      exact stage2_eq_specScan _ _ _

/-- Witness for C3: at an input where stage 1 falls through (a non-string
entry aborts it), the matcher equals the spec's fallback scan. -/
theorem c3_precedence_and_fallback_witness :
    check_purchase_history [DbVal.nonstr true, DbVal.str "ac".toList]
        "ab".toList (mkRat 1 2) =
      specScan (pastItems [DbVal.nonstr true, DbVal.str "ac".toList])
        "ab".toList (mkRat 1 2) :=
  (c3_precedence_and_fallback _ _ _ (by decide)).2 (by decide)

/-- C4: an empty history yields the NoHistory verdict, for every candidate
and every threshold. -/
theorem c4_empty_history (cand : List Char) (t : ℚ) :
    check_purchase_history [] cand t = Verdict.noHistory := rfl

/-- C5: a history entry equal to the candidate up to case has ratio 1
against it, so any threshold ≤ 1 yields a Match verdict; concretely,
evaluate(["Nike Shoes"], "nike shoes", 0.9) = Match "Nike Shoes", with
the matched text in the history entry's original casing. -/
theorem c5_case_insensitive_match :
    (∀ (rows : List DbVal) (cand : List Char) (t : ℚ), t ≤ 1 →
      (∃ s, DbVal.str s ∈ rows ∧ lowerStr s = lowerStr cand) →
      ∃ m, check_purchase_history rows cand t = Verdict.Match m) ∧
    check_purchase_history [DbVal.str "Nike Shoes".toList]
        "nike shoes".toList (mkRat 9 10)
      = Verdict.Match "Nike Shoes".toList := by
  constructor
  · rintro rows cand t h1 ⟨s, hs, hlow⟩
    apply check_match_of_qualifier
    refine ⟨s, ?_, ?_⟩
    · exact List.mem_map_of_mem normEntry hs
    · rw [hlow, ratioOf_self]
      exact h1
  · decide

/-- Witness for C5: scenario 2 of the spec, a case-insensitively equal
entry matches at threshold 0.6. -/
theorem c5_case_insensitive_match_witness :
    ∃ m, check_purchase_history [DbVal.str "Bluetooth Headphones".toList]
        "bluetooth headphones".toList (mkRat 3 5) = Verdict.Match m :=
  c5_case_insensitive_match.1 _ _ _ (by decide)
    ⟨"Bluetooth Headphones".toList, by decide, by decide⟩

/-- C6: threshold monotonicity — if the matcher returns Match at threshold
`t1` and `t2 < t1`, it also returns Match at `t2` (possibly with a
different matched entry). -/
theorem c6_threshold_monotonicity (rows : List DbVal) (cand : List Char)
    (t1 t2 : ℚ) (hlt : t2 < t1)
    (h : ∃ s, check_purchase_history rows cand t1 = Verdict.Match s) :
    ∃ s, check_purchase_history rows cand t2 = Verdict.Match s := by
  obtain ⟨s, hs⟩ := h
  obtain ⟨s', hmem, hq⟩ := check_match_qualifier hs
  exact check_match_of_qualifier ⟨s', hmem, le_trans (le_of_lt hlt) hq⟩

/-- Witness for C6: lowering the threshold from 1 to 1/2 preserves the
Match verdict. -/
theorem c6_threshold_monotonicity_witness :
    ∃ s, check_purchase_history [DbVal.str "ab".toList] "ab".toList
      (mkRat 1 2) = Verdict.Match s :=
  c6_threshold_monotonicity [DbVal.str "ab".toList] "ab".toList 1
    (mkRat 1 2) (by decide) ⟨"ab".toList, by decide⟩

/-- C7: a ratio exactly equal to the threshold counts as a match in both
stages: with ratio("ac", "ab") = 1/2 and threshold 1/2, stage 1 fires and
the matcher returns Match; prefixing a non-string entry aborts stage 1,
and the same at-threshold pair then matches through the stage-2 scan. -/
theorem c7_threshold_equality_matches :
    (ratioOf "ac".toList (lowerStr "ab".toList) = mkRat 1 2 ∧
      stage1try (pastItems [DbVal.str "ac".toList]) "ab".toList (mkRat 1 2)
        = some (Verdict.Match "ac".toList) ∧
      check_purchase_history [DbVal.str "ac".toList] "ab".toList
        (mkRat 1 2) = Verdict.Match "ac".toList) ∧
    (stage1try (pastItems [DbVal.nonstr true, DbVal.str "ac".toList])
        "ab".toList (mkRat 1 2) = none ∧
      check_purchase_history [DbVal.nonstr true, DbVal.str "ac".toList]
        "ab".toList (mkRat 1 2) = Verdict.Match "ac".toList) :=
  ⟨⟨by decide, by decide, by decide⟩, ⟨by decide, by decide⟩⟩

/-- C8: end-to-end scenario 4 — history ["iPhone 13 Case", "Desk Lamp"],
candidate "iPhone 13 Cover", threshold 0.6 gives Match "iPhone 13 Case";
its ratio (24/29) clears the threshold while "Desk Lamp" (1/6) does
not. -/
theorem c8_iphone_scenario :
    check_purchase_history
        [DbVal.str "iPhone 13 Case".toList, DbVal.str "Desk Lamp".toList]
        "iPhone 13 Cover".toList (mkRat 3 5)
      = Verdict.Match "iPhone 13 Case".toList ∧
    mkRat 3 5 ≤ ratioOf (lowerStr "iPhone 13 Case".toList)
        (lowerStr "iPhone 13 Cover".toList) ∧
    ¬ mkRat 3 5 ≤ ratioOf (lowerStr "Desk Lamp".toList)
        (lowerStr "iPhone 13 Cover".toList) :=
  ⟨by decide, by decide, by decide⟩

/-- C9: whenever the matcher returns Match, the reported text is verbatim
an element of the supplied history after the `(r or "")` normalisation;
it never returns a lowercased or otherwise altered string that is not in
the history. -/
theorem c9_match_text_from_history (rows : List DbVal) (cand s : List Char)
    (t : ℚ) (h : check_purchase_history rows cand t = Verdict.Match s) :
    Item.txt s ∈ pastItems rows := by
  cases rows with
  | nil => cases h
  | cons r rest =>
    rw [check_cons] at h
    cases hs1 : stage1try (pastItems (r :: rest)) cand t with
    | some v =>
      obtain ⟨o, hvo, homem⟩ := stage1try_some_match hs1
      rw [hs1] at h
      have h' : v = Verdict.Match s := h
      rw [hvo] at h'
      injection h' with h'
      exact h' ▸ homem
    | none =>
      rw [hs1] at h
      have h' : stage2 (pastItems (r :: rest)) cand t = Verdict.Match s := h
      exact (stage2_match_mem h').1

/-- Witness for C9. -/
theorem c9_match_text_from_history_witness :
    Item.txt "ab".toList ∈ pastItems [DbVal.str "ab".toList] :=
  c9_match_text_from_history [DbVal.str "ab".toList] "ab".toList
    "ab".toList (mkRat 1 2) (by decide)

/-- C10: a threshold outside [0, 1] never raises: the ValueError from the
stage-1 library call is swallowed and evaluation falls to stage 2, so a
threshold > 1 yields NoMatch (no ratio exceeds 1) and a threshold < 0
yields Match on the first history entry (a string, per the spec's data
model; every ratio clears a negative bound). -/
theorem c10_out_of_range_thresholds (rows : List DbVal) (cand : List Char)
    (t : ℚ) :
    (rows ≠ [] → 1 < t →
      check_purchase_history rows cand t = Verdict.noMatch) ∧
    (∀ s rest, rows = DbVal.str s :: rest → t < 0 →
      check_purchase_history rows cand t = Verdict.Match s) := by
  constructor
  · intro hne hgt
    cases rows with
    | nil => exact absurd rfl hne
    | cons r rest =>
      have hs1 : stage1try (pastItems (r :: rest)) cand t = none :=
        stage1try_none_of_out_of_range (fun hr => absurd hgt (not_lt.2 hr.2))
      rw [check_cons, hs1]
      exact stage2_noMatch_of_gt_one hgt
  · rintro s rest rfl hlt
    have hs1 : stage1try (pastItems (DbVal.str s :: rest)) cand t = none :=
      stage1try_none_of_out_of_range (fun hr => absurd hr.1 (not_le.2 hlt))
    rw [check_cons, hs1]
    show (if t ≤ ratioOf (lowerStr s) (lowerStr cand) then Verdict.Match s
      else stage2 (List.map normEntry rest) cand t) = Verdict.Match s
    rw [if_pos (le_trans (le_of_lt hlt) (ratioOf_nonneg _ _))]

/-- Witness for C10: both out-of-range directions at concrete inputs. -/
theorem c10_out_of_range_thresholds_witness :
    check_purchase_history [DbVal.str "a".toList] "xyz".toList (mkRat 3 2)
        = Verdict.noMatch ∧
      check_purchase_history [DbVal.str "a".toList] "xyz".toList
        (mkRat (-1) 1) = Verdict.Match "a".toList :=
  ⟨(c10_out_of_range_thresholds _ _ _).1 (by decide) (by decide),
    (c10_out_of_range_thresholds _ _ _).2 "a".toList [] rfl (by decide)⟩

end Spendsense
